import Mathlib

/-!
Verification of the GeminiBridge bounded-concurrency execution engine.

The development shallowly embeds the two components the specification is
about:

* the process executor `executeGeminiCLIInternal` of
  `src/adapters/gemini_cli.ts` (its `close` / timeout / `error` handlers,
  modelled as an event machine over `ExecState`), and
* the concurrency gate `CLIQueueManager` of `src/utils/cli_queue.ts`
  (modelled as an event machine over `QState`, with ghost fields that
  record which operations were started, finished, admitted, rejected).

JavaScript is single threaded: each event handler body runs atomically up
to its first `await`, so the atomic transitions of the machines below are
exactly the synchronous blocks of the source.
-/

namespace GeminiBridge

/-- `CLIExecutionResult` from `src/types.ts`. -/
structure CLIExecutionResult where
  success : Bool
  content : Option String := none
  error : Option String := none
  exitCode : Int
  stderr : Option String := none
  executionTime : Nat
deriving Repr, DecidableEq

/-- JavaScript `String.prototype.trim`: removes whitespace from both ends. -/
def jsTrim (s : String) : String :=
  ⟨((s.data.dropWhile Char.isWhitespace).reverse.dropWhile Char.isWhitespace).reverse⟩

/-- JavaScript `code || d` where `code : number | null` (`null` and `0` are falsy). -/
def jsOrDefault (code : Option Int) (d : Int) : Int :=
  match code with
  | none => d
  | some c => if c = 0 then d else c

/-- How JavaScript template literals print a `number | null` exit code. -/
def codeToString (code : Option Int) : String :=
  match code with
  | none => "null"
  | some c => toString c

/-- The `close` handler of `executeGeminiCLIInternal`
(`src/adapters/gemini_cli.ts`): classification of the finished process from
its exit code and the accumulated `stdout`/`stderr`. -/
def handleClose (code : Option Int) (stdout stderr : String)
    (executionTime : Nat) : CLIExecutionResult :=
  if code ≠ some 0 then
    { success := false
      error := some ("CLI exited with code " ++ codeToString code)
      exitCode := jsOrDefault code (-1)
      stderr := some stderr
      executionTime := executionTime }
  else
    let content := jsTrim stdout
    if content = "" then
      { success := false
        error := some "Empty response from CLI"
        exitCode := 0
        stderr := some stderr
        executionTime := executionTime }
    else
      { success := true
        content := some content
        exitCode := 0
        stderr := some stderr
        executionTime := executionTime }

/-- C5: For every run of the process executor that reaches the
process-close event: on exit code 0 with non-empty trimmed stdout the
result is success with content equal to the trimmed stdout; on exit code 0
with empty trimmed stdout the result is a failure classified as empty
output; on a non-zero (or null) exit code the result is a failure carrying
the captured stderr. -/
theorem C5_close_classification
    (so1 se1 : String) (t1 : Nat) (h1 : jsTrim so1 ≠ "")
    (so2 se2 : String) (t2 : Nat) (h2 : jsTrim so2 = "")
    (c3 : Option Int) (so3 se3 : String) (t3 : Nat) (h3 : c3 ≠ some 0) :
    (handleClose (some 0) so1 se1 t1).success = true ∧
    (handleClose (some 0) so1 se1 t1).content = some (jsTrim so1) ∧
    (handleClose (some 0) so1 se1 t1).exitCode = 0 ∧
    (handleClose (some 0) so2 se2 t2).success = false ∧
    (handleClose (some 0) so2 se2 t2).error = some "Empty response from CLI" ∧
    (handleClose (some 0) so2 se2 t2).exitCode = 0 ∧
    (handleClose c3 so3 se3 t3).success = false ∧
    (handleClose c3 so3 se3 t3).stderr = some se3 := by
  refine ⟨?_, ?_, ?_, ?_, ?_, ?_, ?_, ?_⟩ <;>
    simp [handleClose, h1, h2, h3]

/-- Witness for C5 at concrete inputs. -/
theorem C5_close_classification_witness :
    (handleClose (some 0) " hello " "e1" 10).success = true ∧
    (handleClose (some 0) " hello " "e1" 10).content = some (jsTrim " hello ") ∧
    (handleClose (some 0) " hello " "e1" 10).exitCode = 0 ∧
    (handleClose (some 0) "  " "e2" 11).success = false ∧
    (handleClose (some 0) "  " "e2" 11).error = some "Empty response from CLI" ∧
    (handleClose (some 0) "  " "e2" 11).exitCode = 0 ∧
    (handleClose (some 1) "x" "boom" 12).success = false ∧
    (handleClose (some 1) "x" "boom" 12).stderr = some "boom" :=
  C5_close_classification " hello " "e1" 10 (by decide)
    "  " "e2" 11 (by decide)
    (some 1) "x" "boom" 12 (by decide)

/-- State of one run of `executeGeminiCLIInternal`: the promise settlement
(`resolve` is only effective once), the pending timeout timer, whether
`kill()` was issued, whether the scratch working directory still exists,
the accumulated `stdout`/`stderr`, and whether the `close` event has been
observed. -/
structure ExecState where
  settled : Option CLIExecutionResult
  timerActive : Bool
  killed : Bool
  dirExists : Bool
  stdout : String
  stderr : String
  closed : Bool
deriving Repr, DecidableEq

/-- State right after the synchronous prologue of
`executeGeminiCLIInternal`: scratch directory created, timeout timer set,
empty output buffers, promise pending. -/
def execInit : ExecState :=
  { settled := none, timerActive := true, killed := false, dirExists := true
    stdout := "", stderr := "", closed := false }

/-- Promise semantics of `resolve`: only the first settlement is kept. -/
def resolveOnce (s : ExecState) (r : CLIExecutionResult) : ExecState :=
  match s.settled with
  | some _ => s
  | none => { s with settled := some r }

/-- The value resolved by the timeout callback in
`executeGeminiCLIInternal` (`elapsed` is `Date.now() - startTime`). -/
def timeoutResult (elapsed : Nat) : CLIExecutionResult :=
  { success := false, error := some "Execution timeout", exitCode := -1
    stderr := some "Process killed due to timeout", executionTime := elapsed }

/-- The value resolved by the `error` (spawn failure) handler. -/
def spawnErrorResult (msg : String) (elapsed : Nat) : CLIExecutionResult :=
  { success := false, error := some msg, exitCode := -1
    stderr := some "", executionTime := elapsed }

/-- Events delivered to one run of `executeGeminiCLIInternal`:
stdout/stderr data chunks, the timeout timer firing, the process `close`
event (with its exit code), and the spawn-level `error` event. -/
inductive ExecEvent where
  | stdoutData (chunk : String)
  | stderrData (chunk : String)
  | timerFire (elapsed : Nat)
  | close (code : Option Int) (elapsed : Nat)
  | spawnError (msg : String) (elapsed : Nat)
deriving Repr, DecidableEq

/-- One event handler of `executeGeminiCLIInternal`, run atomically
(JavaScript handlers are synchronous blocks):
* the timeout callback kills the process and resolves a timeout failure
  (it can only run while the timer is pending);
* the `close` handler clears the timer, removes the scratch directory,
  and resolves the classified result (`handleClose`);
* the `error` handler clears the timer and resolves a spawn failure. -/
def execStep (s : ExecState) : ExecEvent → ExecState
  | .stdoutData c => if s.closed then s else { s with stdout := s.stdout ++ c }
  | .stderrData c => if s.closed then s else { s with stderr := s.stderr ++ c }
  | .timerFire elapsed =>
      if s.timerActive then
        resolveOnce { s with timerActive := false, killed := true }
          (timeoutResult elapsed)
      else s
  | .close code elapsed =>
      if s.closed then s
      else
        resolveOnce
          { s with closed := true, timerActive := false, dirExists := false }
          (handleClose code s.stdout s.stderr elapsed)
  | .spawnError msg elapsed =>
      resolveOnce { s with timerActive := false }
        { spawnErrorResult msg elapsed with stderr := some s.stderr }

/-- Run one execution of `executeGeminiCLIInternal` over a list of events. -/
def execRun (evs : List ExecEvent) : ExecState :=
  evs.foldl execStep execInit

/-- Invariant of the execution machine: once the timer is cleared the
promise is settled; once `close` was seen the promise is settled and the
scratch directory is gone; a settled promise implies the timer is no
longer pending. -/
def execInv (s : ExecState) : Prop :=
  (s.timerActive = false → s.settled.isSome = true) ∧
  (s.closed = true → s.settled.isSome = true ∧ s.dirExists = false) ∧
  (s.settled.isSome = true → s.timerActive = false)

theorem execInv_init : execInv execInit := by
  simp [execInv, execInit]

theorem execInv_step (s : ExecState) (e : ExecEvent) (h : execInv s) :
    execInv (execStep s e) := by
  obtain ⟨h1, h2, h3⟩ := h
  cases e with
  | stdoutData c =>
      by_cases hc : s.closed <;> simp [execStep, hc, execInv, h1, h2, h3] at *
      all_goals tauto
  | stderrData c =>
      by_cases hc : s.closed <;> simp [execStep, hc, execInv, h1, h2, h3] at *
      all_goals tauto
  | timerFire t =>
      by_cases ht : s.timerActive
      · have hs : s.settled = none := by
          cases hv : s.settled with
          | none => rfl
          | some r => exact absurd (h3 (by simp [hv])) (by simp [ht])
        simp [execStep, ht, resolveOnce, hs, execInv]
        intro hcl
        exact absurd (h2 hcl).1 (by simp [hs])
      · simp only [execStep, if_neg ht]
        exact ⟨h1, h2, h3⟩
  | close code t =>
      by_cases hc : s.closed
      · simp only [execStep, if_pos hc]
        exact ⟨h1, h2, h3⟩
      · simp only [execStep, if_neg hc, resolveOnce]
        cases hv : s.settled with
        | none => simp [execInv]
        | some r => simp [execInv, hv]
  | spawnError msg t =>
      cases hv : s.settled with
      | none =>
          simp [execStep, resolveOnce, hv, execInv]
          intro hcl
          exact (h2 hcl).2
      | some r =>
          simp [execStep, resolveOnce, hv, execInv]
          intro hcl
          exact (h2 hcl).2

theorem execInv_run (evs : List ExecEvent) : execInv (execRun evs) := by
  unfold execRun
  induction evs using List.reverseRecOn with
  | nil => exact execInv_init
  | append_singleton l e ih =>
      rw [List.foldl_append, List.foldl_cons, List.foldl_nil]
      exact execInv_step _ e ih

/-- A settled promise is never settled again: every later event keeps the
same settlement. -/
theorem execStep_settled_stable (s : ExecState) (e : ExecEvent)
    (r : CLIExecutionResult) (h : s.settled = some r) :
    (execStep s e).settled = some r := by
  cases e with
  | stdoutData c => by_cases hc : s.closed <;> simp [execStep, hc, h]
  | stderrData c => by_cases hc : s.closed <;> simp [execStep, hc, h]
  | timerFire t =>
      by_cases ht : s.timerActive <;> simp [execStep, ht, resolveOnce, h]
  | close code t =>
      by_cases hc : s.closed <;> simp [execStep, hc, resolveOnce, h]
  | spawnError msg t => simp [execStep, resolveOnce, h]

theorem execFoldl_settled_stable (more : List ExecEvent) (s : ExecState)
    (r : CLIExecutionResult) (h : s.settled = some r) :
    (more.foldl execStep s).settled = some r := by
  induction more generalizing s with
  | nil => exact h
  | cons e rest ih =>
      rw [List.foldl_cons]
      exact ih _ (execStep_settled_stable s e r h)

theorem execRun_settled_stable (evs more : List ExecEvent)
    (r : CLIExecutionResult) (h : (execRun evs).settled = some r) :
    (execRun (evs ++ more)).settled = some r := by
  unfold execRun at *
  rw [List.foldl_append]
  exact execFoldl_settled_stable more _ r h

theorem execStep_close_closed (s : ExecState) (c : Option Int) (t : Nat) :
    (execStep s (.close c t)).closed = true := by
  by_cases hc : s.closed
  · simp [execStep, hc]
  · cases hv : s.settled <;> simp [execStep, hc, resolveOnce, hv]

theorem closed_stable_foldl (l : List ExecEvent) (s : ExecState)
    (h : s.closed = true) : (l.foldl execStep s).closed = true := by
  induction l generalizing s with
  | nil => exact h
  | cons e rest ih =>
      rw [List.foldl_cons]
      refine ih _ ?_
      cases e with
      | stdoutData c => simp [execStep, h]
      | stderrData c => simp [execStep, h]
      | timerFire t =>
          by_cases ht : s.timerActive <;>
            cases hv : s.settled <;> simp [execStep, ht, resolveOnce, hv, h]
      | close c t => exact execStep_close_closed s c t
      | spawnError m t => cases hv : s.settled <;> simp [execStep, resolveOnce, hv, h]

/-- C6: If the timeout timer fires while still pending, the process is
killed and the promise settles with the timeout-classified failure
(`success = false`, `exitCode = -1`); the `close` handler always cancels
the timer; and a settled promise keeps the same externally visible
`CLIExecutionResult` no matter which further events (including a late
`close` after a timeout kill) are delivered. -/
theorem C6_timeout_kill_exactly_once
    (evs1 : List ExecEvent) (t1 : Nat) (h1 : (execRun evs1).timerActive = true)
    (evs2 : List ExecEvent) (c2 : Option Int) (t2 : Nat)
    (h2 : (execRun evs2).closed = false)
    (evs3 more : List ExecEvent) (r : CLIExecutionResult)
    (h3 : (execRun evs3).settled = some r) :
    (execStep (execRun evs1) (.timerFire t1)).killed = true ∧
    (execStep (execRun evs1) (.timerFire t1)).settled = some (timeoutResult t1) ∧
    (timeoutResult t1).success = false ∧
    (timeoutResult t1).exitCode = -1 ∧
    (execStep (execRun evs2) (.close c2 t2)).timerActive = false ∧
    (execRun (evs3 ++ more)).settled = some r := by
  have hinv := execInv_run evs1
  have hs : (execRun evs1).settled = none := by
    cases hv : (execRun evs1).settled with
    | none => rfl
    | some x =>
        have hta := hinv.2.2 (by simp [hv])
        rw [h1] at hta
        exact absurd hta (by simp)
  refine ⟨?_, ?_, rfl, rfl, ?_, execRun_settled_stable evs3 more r h3⟩
  · simp [execStep, h1, resolveOnce, hs]
  · simp [execStep, h1, resolveOnce, hs]
  · cases hv : (execRun evs2).settled <;>
      simp [execStep, h2, resolveOnce, hv]

/-- Witness for C6 at concrete inputs: fresh run for the timer and close
parts; for stability, a run settled by a timeout kill followed by the late
`close` event of the killed process. -/
theorem C6_timeout_kill_exactly_once_witness :
    (execStep (execRun []) (.timerFire 7)).killed = true ∧
    (execStep (execRun []) (.timerFire 7)).settled = some (timeoutResult 7) ∧
    (timeoutResult 7).success = false ∧
    (timeoutResult 7).exitCode = -1 ∧
    (execStep (execRun []) (.close (some 0) 9)).timerActive = false ∧
    (execRun ([ExecEvent.timerFire 7] ++ [ExecEvent.close none 9])).settled =
      some (timeoutResult 7) :=
  C6_timeout_kill_exactly_once [] 7 (by decide) [] (some 0) 9 (by decide)
    [ExecEvent.timerFire 7] [ExecEvent.close none 9] (timeoutResult 7)
    (by decide)

/-- C7: The scratch workspace directory is destroyed on every exit path of
the executor: the `close` event fires on every path (normal exit, non-zero
exit, timeout-triggered kill, and after a spawn-level `error`), and once a
run has observed its `close` event the directory is absent. -/
theorem C7_workspace_cleanup (evs : List ExecEvent) (c : Option Int)
    (t : Nat) (h : ExecEvent.close c t ∈ evs) :
    (execRun evs).dirExists = false := by
  obtain ⟨l1, l2, rfl⟩ := List.append_of_mem h
  have hc : (execRun (l1 ++ ExecEvent.close c t :: l2)).closed = true := by
    unfold execRun
    rw [List.foldl_append, List.foldl_cons]
    exact closed_stable_foldl l2 _ (execStep_close_closed _ c t)
  exact ((execInv_run (l1 ++ ExecEvent.close c t :: l2)).2.1 hc).2

/-- Witness for C7: a spawn-error path followed by the close event leaves
no scratch directory. -/
theorem C7_workspace_cleanup_witness :
    (execRun [ExecEvent.spawnError "spawn gemini ENOENT" 3,
              ExecEvent.close none 5]).dirExists = false :=
  C7_workspace_cleanup
    [ExecEvent.spawnError "spawn gemini ENOENT" 3, ExecEvent.close none 5]
    none 5 (by decide)

/-- One entry of the wait queue of `CLIQueueManager`
(`src/utils/cli_queue.ts`, interface `QueuedRequest`): the request id and
its enqueue timestamp. The `resolve`/`reject` closures are represented by
the transitions of the machine below. -/
structure QueuedEntry where
  id : String
  timestamp : Nat
deriving Repr, DecidableEq

/-- State of `CLIQueueManager`. The first six fields are the fields of the
TypeScript class; the remaining fields are ghost instrumentation used to
state the claims: `running` (ids of operations currently executing),
`started` (every id whose operation was invoked, in start order),
`finished` (number of operations that began executing and finished),
`rejectedQueue` (ids rejected by the queue timeout, with the error
message), `settledOk`/`settledErr` (how the promise returned by `execute`
settled for completed operations), `enqOrder` (ids in enqueue order),
`admitOrder` (ids admitted from the queue, in admission order),
`timedOutIds` (ids removed by the queue timeout), and `arrived` (every id
ever submitted to `execute`). -/
structure QState where
  activeRequests : Nat
  queue : List QueuedEntry
  maxConcurrent : Nat
  totalProcessed : Nat
  totalWaitTime : Nat
  queueTimeout : Nat
  running : List String
  started : List String
  finished : Nat
  rejectedQueue : List (String × String)
  settledOk : List String
  settledErr : List String
  enqOrder : List String
  admitOrder : List String
  timedOutIds : List String
  arrived : List String
deriving Repr, DecidableEq

/-- A freshly constructed `CLIQueueManager(maxConcurrent, queueTimeout)`. -/
def qInit (maxConcurrent queueTimeout : Nat) : QState :=
  { activeRequests := 0, queue := [], maxConcurrent := maxConcurrent
    totalProcessed := 0, totalWaitTime := 0, queueTimeout := queueTimeout
    running := [], started := [], finished := 0, rejectedQueue := []
    settledOk := [], settledErr := [], enqOrder := [], admitOrder := []
    timedOutIds := [], arrived := [] }

/-- The synchronous prefix of one iteration of the `processQueue` loop
admitting queue entry `e`: the dequeued entry's `resolve` runs
`totalWaitTime += now - e.timestamp` and then calls `executeImmediate`,
whose body synchronously increments `activeRequests` and invokes the
operation. -/
def admitOne (s : QState) (e : QueuedEntry) (now : Nat) : QState :=
  { s with
    totalWaitTime := s.totalWaitTime + (now - e.timestamp)
    activeRequests := s.activeRequests + 1
    running := s.running ++ [e.id]
    started := s.started ++ [e.id]
    admitOrder := s.admitOrder ++ [e.id] }

/-- The `while` loop of `CLIQueueManager.processQueue`: as long as the
queue is non-empty and `activeRequests < maxConcurrent`, shift the head
entry and run its `resolve` (`admitOne`). Each admission increments
`activeRequests` synchronously before the loop condition is re-checked. -/
def processQueueGo (now : Nat) : List QueuedEntry → QState → QState
  | [], s => { s with queue := [] }
  | e :: rest, s =>
      if s.activeRequests < s.maxConcurrent then
        processQueueGo now rest (admitOne s e now)
      else { s with queue := e :: rest }

/-- `CLIQueueManager.processQueue`. -/
def processQueue (s : QState) (now : Nat) : QState :=
  processQueueGo now s.queue { s with queue := [] }

/-- JavaScript `Array.prototype.findIndex` on the id followed by
`splice(index, 1)`: remove the first queue entry with the given id, or
return `none` when `findIndex` yields `-1`. -/
def removeFirstById (r : String) : List QueuedEntry → Option (List QueuedEntry)
  | [] => none
  | q :: rest =>
      if q.id = r then some rest
      else (removeFirstById r rest).map (q :: ·)

/-- Events of `CLIQueueManager`:
* `arrive id now` — a call to `execute(id, operation)`;
* `complete id ok now` — the running operation for `id` settles
  (`ok = true`: its promise resolved; `ok = false`: it rejected), which
  runs the `finally` block of `executeImmediate` and then `processQueue`;
* `fireTimeout id` — the `setTimeout` callback registered at enqueue time
  fires;
* `setMax m now` — a call to `setMaxConcurrent(m)`. -/
inductive QEvent where
  | arrive (id : String) (now : Nat)
  | complete (id : String) (ok : Bool) (now : Nat)
  | fireTimeout (id : String)
  | setMax (m : Nat) (now : Nat)
deriving Repr, DecidableEq

/-- The queue-timeout rejection message
`` `Request timeout: queued for ${this.queueTimeout}ms` ``. -/
def queueTimeoutMsg (queueTimeout : Nat) : String :=
  "Request timeout: queued for " ++ toString queueTimeout ++ "ms"

/-- One atomic transition of `CLIQueueManager` (each branch is a
synchronous block of the TypeScript source). -/
def qStep (s : QState) : QEvent → QState
  | .arrive id now =>
      if s.activeRequests < s.maxConcurrent then
        { s with
          activeRequests := s.activeRequests + 1
          running := s.running ++ [id]
          started := s.started ++ [id]
          arrived := s.arrived ++ [id] }
      else
        { s with
          queue := s.queue ++ [⟨id, now⟩]
          enqOrder := s.enqOrder ++ [id]
          arrived := s.arrived ++ [id] }
  | .complete id ok now =>
      if id ∈ s.running then
        processQueue
          { s with
            running := s.running.erase id
            activeRequests := s.activeRequests - 1
            totalProcessed := s.totalProcessed + 1
            finished := s.finished + 1
            settledOk := if ok then s.settledOk ++ [id] else s.settledOk
            settledErr := if ok then s.settledErr else s.settledErr ++ [id] }
          now
      else s
  | .fireTimeout id =>
      match removeFirstById id s.queue with
      | some queue' =>
          { s with
            queue := queue'
            rejectedQueue := s.rejectedQueue ++ [(id, queueTimeoutMsg s.queueTimeout)]
            timedOutIds := s.timedOutIds ++ [id] }
      | none => s
  | .setMax m now =>
      processQueue { s with maxConcurrent := m } now

/-- Run `CLIQueueManager` from a fresh instance over a list of events. -/
def qRun (maxConcurrent queueTimeout : Nat) (evs : List QEvent) : QState :=
  evs.foldl qStep (qInit maxConcurrent queueTimeout)

/-- `QueueStats` from `CLIQueueManager.getStats`; `averageWaitTime` is
`Math.round(totalWaitTime / totalProcessed)` (an integer). -/
structure QueueStats where
  activeRequests : Nat
  queuedRequests : Nat
  totalProcessed : Nat
  averageWaitTime : Int
  maxConcurrent : Nat
deriving Repr, DecidableEq

/-- JavaScript `Math.round`: round half away from zero for non-negative
arguments, i.e. `⌊x + 1/2⌋`. -/
def mathRound (q : ℚ) : Int :=
  ⌊q + 1 / 2⌋

/-- `CLIQueueManager.getStats`. -/
def getStats (s : QState) : QueueStats :=
  { activeRequests := s.activeRequests
    queuedRequests := s.queue.length
    totalProcessed := s.totalProcessed
    averageWaitTime :=
      if 0 < s.totalProcessed then
        mathRound ((s.totalWaitTime : ℚ) / (s.totalProcessed : ℚ))
      else 0
    maxConcurrent := s.maxConcurrent }

theorem processQueueGo_fields (now : Nat) (l : List QueuedEntry) (s : QState) :
    (processQueueGo now l s).maxConcurrent = s.maxConcurrent ∧
    (processQueueGo now l s).totalProcessed = s.totalProcessed ∧
    (processQueueGo now l s).finished = s.finished ∧
    (processQueueGo now l s).queueTimeout = s.queueTimeout ∧
    (processQueueGo now l s).rejectedQueue = s.rejectedQueue ∧
    (processQueueGo now l s).settledOk = s.settledOk ∧
    (processQueueGo now l s).settledErr = s.settledErr ∧
    (processQueueGo now l s).enqOrder = s.enqOrder ∧
    (processQueueGo now l s).timedOutIds = s.timedOutIds ∧
    (processQueueGo now l s).arrived = s.arrived := by
  induction l generalizing s with
  | nil => simp [processQueueGo]
  | cons e rest ih =>
      by_cases h : s.activeRequests < s.maxConcurrent
      · simp only [processQueueGo, if_pos h]
        simpa [admitOne] using ih (admitOne s e now)
      · simp [processQueueGo, if_neg h]

/-- Accounting invariant of `CLIQueueManager`: `activeRequests` counts the
currently running operations; every started operation is either running or
finished; `totalProcessed` counts the finished ones. -/
def Accounting (s : QState) : Prop :=
  s.activeRequests = s.running.length ∧
  s.started.length = s.finished + s.running.length ∧
  s.totalProcessed = s.finished

theorem processQueueGo_accounting (now : Nat) (l : List QueuedEntry)
    (s : QState) (h : Accounting s) : Accounting (processQueueGo now l s) := by
  induction l generalizing s with
  | nil =>
      obtain ⟨h1, h2, h3⟩ := h
      exact ⟨h1, h2, h3⟩
  | cons e rest ih =>
      by_cases hlt : s.activeRequests < s.maxConcurrent
      · simp only [processQueueGo, if_pos hlt]
        refine ih (admitOne s e now) ?_
        obtain ⟨h1, h2, h3⟩ := h
        refine ⟨?_, ?_, h3⟩ <;> simp [admitOne, h1, h2] <;> omega
      · simp only [processQueueGo, if_neg hlt]
        exact h

theorem processQueueGo_bounds (now : Nat) (l : List QueuedEntry) (s : QState)
    (h1 : s.activeRequests = s.running.length)
    (h2 : s.activeRequests ≤ s.maxConcurrent) :
    (processQueueGo now l s).activeRequests =
      (processQueueGo now l s).running.length ∧
    (processQueueGo now l s).activeRequests ≤
      (processQueueGo now l s).maxConcurrent := by
  induction l generalizing s with
  | nil => exact ⟨h1, h2⟩
  | cons e rest ih =>
      by_cases hlt : s.activeRequests < s.maxConcurrent
      · simp only [processQueueGo, if_pos hlt]
        exact ih (admitOne s e now) (by simp [admitOne, h1])
          (by simp [admitOne]; omega)
      · simp only [processQueueGo, if_neg hlt]
        exact ⟨h1, h2⟩

theorem processQueueGo_settled_indep (now : Nat) (l : List QueuedEntry)
    (s₁ s₂ : QState)
    (ha : s₁.activeRequests = s₂.activeRequests)
    (hm : s₁.maxConcurrent = s₂.maxConcurrent)
    (hr : s₁.running = s₂.running) :
    (processQueueGo now l s₁).activeRequests =
      (processQueueGo now l s₂).activeRequests ∧
    (processQueueGo now l s₁).running = (processQueueGo now l s₂).running := by
  induction l generalizing s₁ s₂ with
  | nil => exact ⟨ha, hr⟩
  | cons e rest ih =>
      by_cases hlt : s₁.activeRequests < s₁.maxConcurrent
      · have hlt₂ : s₂.activeRequests < s₂.maxConcurrent := by
          rw [← ha, ← hm]; exact hlt
        simp only [processQueueGo, if_pos hlt, if_pos hlt₂]
        exact ih _ _ (by simp [admitOne, ha]) (by simp [admitOne, hm])
          (by simp [admitOne, hr])
      · have hlt₂ : ¬ s₂.activeRequests < s₂.maxConcurrent := by
          rw [← ha, ← hm]; exact hlt
        simp only [processQueueGo, if_neg hlt, if_neg hlt₂]
        exact ⟨ha, hr⟩

theorem qStep_accounting (s : QState) (e : QEvent) (h : Accounting s) :
    Accounting (qStep s e) := by
  obtain ⟨h1, h2, h3⟩ := h
  cases e with
  | arrive id now =>
      by_cases hlt : s.activeRequests < s.maxConcurrent
      · simp only [qStep, if_pos hlt]
        exact ⟨by simp [h1], by simp [h2]; omega, h3⟩
      · simp only [qStep, if_neg hlt]
        exact ⟨h1, h2, h3⟩
  | complete id ok now =>
      by_cases hmem : id ∈ s.running
      · have hlen : 0 < s.running.length := List.length_pos.mpr
          (List.ne_nil_of_mem hmem)
        simp only [qStep, if_pos hmem, processQueue]
        refine processQueueGo_accounting _ _ _ ⟨?_, ?_, ?_⟩ <;>
          simp [List.length_erase_of_mem hmem, h1, h2, h3] <;> omega
      · simp only [qStep, if_neg hmem]
        exact ⟨h1, h2, h3⟩
  | fireTimeout id =>
      cases hr : removeFirstById id s.queue with
      | some q' => exact ⟨by simp [qStep, hr, h1], by simp [qStep, hr, h2],
          by simp [qStep, hr, h3]⟩
      | none =>
          simp only [qStep, hr]
          exact ⟨h1, h2, h3⟩
  | setMax m now =>
      simp only [qStep, processQueue]
      exact processQueueGo_accounting _ _ _ ⟨h1, h2, h3⟩

theorem qRun_accounting (c t : Nat) (evs : List QEvent) :
    Accounting (qRun c t evs) := by
  unfold qRun
  induction evs using List.reverseRecOn with
  | nil => exact ⟨rfl, rfl, rfl⟩
  | append_singleton l e ih =>
      rw [List.foldl_append, List.foldl_cons, List.foldl_nil]
      exact qStep_accounting _ e ih

/-- States of `CLIQueueManager` reachable by interleavings of `execute`
calls, completions and queue timeouts, and by `setMaxConcurrent` updates
that never set the limit below the current `activeRequests`. -/
inductive ReachNoShrink (c t : Nat) : QState → Prop
  | init : ReachNoShrink c t (qInit c t)
  | step (s : QState) (e : QEvent) : ReachNoShrink c t s →
      (∀ m now, e = QEvent.setMax m now → s.activeRequests ≤ m) →
      ReachNoShrink c t (qStep s e)

theorem ReachNoShrink_bounds (c t : Nat) (s : QState)
    (h : ReachNoShrink c t s) :
    s.activeRequests = s.running.length ∧
    s.activeRequests ≤ s.maxConcurrent := by
  induction h with
  | init => exact ⟨rfl, Nat.zero_le _⟩
  | step s e _ hcond ih =>
      obtain ⟨h1, h2⟩ := ih
      cases e with
      | arrive id now =>
          by_cases hlt : s.activeRequests < s.maxConcurrent
          · simp only [qStep, if_pos hlt]
            exact ⟨by simp [h1], by simpa using hlt⟩
          · simp only [qStep, if_neg hlt]
            exact ⟨h1, h2⟩
      | complete id ok now =>
          by_cases hmem : id ∈ s.running
          · simp only [qStep, if_pos hmem, processQueue]
            refine processQueueGo_bounds _ _ _ ?_ ?_
            · simp [List.length_erase_of_mem hmem, h1]
            · simp
              omega
          · simp only [qStep, if_neg hmem]
            exact ⟨h1, h2⟩
      | fireTimeout id =>
          cases hr : removeFirstById id s.queue with
          | some q' => exact ⟨by simp [qStep, hr, h1], by simp [qStep, hr, h2]⟩
          | none =>
              simp only [qStep, hr]
              exact ⟨h1, h2⟩
      | setMax m now =>
          simp only [qStep, processQueue]
          exact processQueueGo_bounds _ _ _ (by simpa using h1)
            (by simpa using hcond m now rfl)

/-- C1 (amended): in every state of `CLIQueueManager` reachable by
interleavings of `execute` calls, completions and queue timeouts, together
with `setMaxConcurrent` updates that never set the limit below the current
`activeRequests`, `0 ≤ activeRequests ≤ maxConcurrent` holds, and
`activeRequests` counts exactly the operations running concurrently — so
with a fixed `maxConcurrent = K`, at no point do more than `K` operations
run concurrently. -/
theorem C1_amended_bounded (c t : Nat) (s : QState)
    (h : ReachNoShrink c t s) :
    0 ≤ s.activeRequests ∧ s.activeRequests ≤ s.maxConcurrent ∧
    s.activeRequests = s.running.length ∧
    s.running.length ≤ s.maxConcurrent := by
  obtain ⟨h1, h2⟩ := ReachNoShrink_bounds c t s h
  exact ⟨Nat.zero_le _, h2, h1, h1 ▸ h2⟩

/-- Witness for C1 (amended): two immediate submissions with
`maxConcurrent = 2`, followed by a completion. -/
theorem C1_amended_bounded_witness :
    0 ≤ (qRun 2 30000 [QEvent.arrive "A" 0, QEvent.arrive "B" 0,
          QEvent.complete "A" true 5]).activeRequests ∧
    (qRun 2 30000 [QEvent.arrive "A" 0, QEvent.arrive "B" 0,
          QEvent.complete "A" true 5]).activeRequests ≤
      (qRun 2 30000 [QEvent.arrive "A" 0, QEvent.arrive "B" 0,
          QEvent.complete "A" true 5]).maxConcurrent ∧
    (qRun 2 30000 [QEvent.arrive "A" 0, QEvent.arrive "B" 0,
          QEvent.complete "A" true 5]).activeRequests =
      (qRun 2 30000 [QEvent.arrive "A" 0, QEvent.arrive "B" 0,
          QEvent.complete "A" true 5]).running.length ∧
    (qRun 2 30000 [QEvent.arrive "A" 0, QEvent.arrive "B" 0,
          QEvent.complete "A" true 5]).running.length ≤
      (qRun 2 30000 [QEvent.arrive "A" 0, QEvent.arrive "B" 0,
          QEvent.complete "A" true 5]).maxConcurrent :=
  C1_amended_bounded 2 30000 _
    (ReachNoShrink.step _ (QEvent.complete "A" true 5)
      (ReachNoShrink.step _ (QEvent.arrive "B" 0)
        (ReachNoShrink.step _ (QEvent.arrive "A" 0)
          (ReachNoShrink.init) (fun m now h => nomatch h))
        (fun m now h => nomatch h))
      (fun m now h => nomatch h))

/-- C1 (counterexample): the claimed invariant
`activeRequests ≤ maxConcurrent` over interleavings that include arbitrary
`setMaxConcurrent` updates is false: with `maxConcurrent = 2`, two
immediate submissions followed by `setMaxConcurrent(1)` reach a state with
`activeRequests = 2 > maxConcurrent = 1`. -/
theorem C1_counterexample :
    (qRun 2 30000 [QEvent.arrive "A" 0, QEvent.arrive "B" 0,
        QEvent.setMax 1 1]).activeRequests = 2 ∧
    (qRun 2 30000 [QEvent.arrive "A" 0, QEvent.arrive "B" 0,
        QEvent.setMax 1 1]).maxConcurrent = 1 ∧
    ¬ ((qRun 2 30000 [QEvent.arrive "A" 0, QEvent.arrive "B" 0,
        QEvent.setMax 1 1]).activeRequests ≤
       (qRun 2 30000 [QEvent.arrive "A" 0, QEvent.arrive "B" 0,
        QEvent.setMax 1 1]).maxConcurrent) := by
  refine ⟨?_, ?_, ?_⟩ <;> decide

/-- C2: for every operation passed to `executeImmediate`, the `finally`
block decrements `activeRequests` and increments `totalProcessed` exactly
once on every exit path — on the resolve path and on the reject path
alike. Stated via the accounting ghost fields: a completion (with either
outcome) increments `finished` and `totalProcessed` by exactly one, the
accounting balance `activeRequests = started - finished`,
`totalProcessed = finished` holds before and after, and the reject path
performs exactly the same accounting as the resolve path. -/
theorem C2_release_exactly_once (c t : Nat) (evs : List QEvent)
    (id : String) (ok : Bool) (now : Nat)
    (h : id ∈ (qRun c t evs).running) :
    (qStep (qRun c t evs) (QEvent.complete id ok now)).finished =
      (qRun c t evs).finished + 1 ∧
    (qStep (qRun c t evs) (QEvent.complete id ok now)).totalProcessed =
      (qRun c t evs).totalProcessed + 1 ∧
    Accounting (qRun c t evs) ∧
    Accounting (qStep (qRun c t evs) (QEvent.complete id ok now)) ∧
    (qStep (qRun c t evs) (QEvent.complete id false now)).activeRequests =
      (qStep (qRun c t evs) (QEvent.complete id true now)).activeRequests ∧
    (qStep (qRun c t evs) (QEvent.complete id false now)).totalProcessed =
      (qStep (qRun c t evs) (QEvent.complete id true now)).totalProcessed ∧
    (qStep (qRun c t evs) (QEvent.complete id false now)).finished =
      (qStep (qRun c t evs) (QEvent.complete id true now)).finished := by
  have hacc := qRun_accounting c t evs
  have hfin : ∀ (b : Bool),
      (qStep (qRun c t evs) (QEvent.complete id b now)).finished =
        (qRun c t evs).finished + 1 ∧
      (qStep (qRun c t evs) (QEvent.complete id b now)).totalProcessed =
        (qRun c t evs).totalProcessed + 1 := by
    intro b
    simp only [qStep, if_pos h, processQueue]
    constructor
    · rw [(processQueueGo_fields now _ _).2.2.1]
    · rw [(processQueueGo_fields now _ _).2.1]
  have hact : (qStep (qRun c t evs) (QEvent.complete id false now)).activeRequests =
      (qStep (qRun c t evs) (QEvent.complete id true now)).activeRequests := by
    simp only [qStep, if_pos h, processQueue]
    refine (processQueueGo_settled_indep now _ _ _ ?_ ?_ ?_).1
    · rfl
    · rfl
    · rfl
  refine ⟨(hfin ok).1, (hfin ok).2, hacc, qStep_accounting _ _ hacc, hact, ?_, ?_⟩
  · rw [(hfin false).2, (hfin true).2]
  · rw [(hfin false).1, (hfin true).1]

/-- Witness for C2: one immediate submission, completed by rejection. -/
theorem C2_release_exactly_once_witness :
    (qStep (qRun 1 30000 [QEvent.arrive "A" 0])
        (QEvent.complete "A" false 5)).finished =
      (qRun 1 30000 [QEvent.arrive "A" 0]).finished + 1 ∧
    (qStep (qRun 1 30000 [QEvent.arrive "A" 0])
        (QEvent.complete "A" false 5)).totalProcessed =
      (qRun 1 30000 [QEvent.arrive "A" 0]).totalProcessed + 1 ∧
    Accounting (qRun 1 30000 [QEvent.arrive "A" 0]) ∧
    Accounting (qStep (qRun 1 30000 [QEvent.arrive "A" 0])
        (QEvent.complete "A" false 5)) ∧
    (qStep (qRun 1 30000 [QEvent.arrive "A" 0])
        (QEvent.complete "A" false 5)).activeRequests =
      (qStep (qRun 1 30000 [QEvent.arrive "A" 0])
        (QEvent.complete "A" true 5)).activeRequests ∧
    (qStep (qRun 1 30000 [QEvent.arrive "A" 0])
        (QEvent.complete "A" false 5)).totalProcessed =
      (qStep (qRun 1 30000 [QEvent.arrive "A" 0])
        (QEvent.complete "A" true 5)).totalProcessed ∧
    (qStep (qRun 1 30000 [QEvent.arrive "A" 0])
        (QEvent.complete "A" false 5)).finished =
      (qStep (qRun 1 30000 [QEvent.arrive "A" 0])
        (QEvent.complete "A" true 5)).finished :=
  C2_release_exactly_once 1 30000 [QEvent.arrive "A" 0] "A" false 5 (by decide)

theorem mathRound_nat_div (a b : Nat) (hb : 0 < b) :
    mathRound ((a : ℚ) / (b : ℚ)) = ((2 * a + b) / (2 * b) : ℕ) := by
  unfold mathRound
  have hb' : (b : ℚ) ≠ 0 := Nat.cast_ne_zero.mpr (Nat.pos_iff_ne_zero.mp hb)
  have heq : (a : ℚ) / b + 1 / 2 = ((2 * a + b : ℕ) : ℚ) / ((2 * b : ℕ) : ℚ) := by
    push_cast
    field_simp
    ring
  rw [heq, Rat.floor_natCast_div_natCast]
  exact (Int.ofNat_div _ _).symm

/-- C10: in every reachable state of `CLIQueueManager`, `totalProcessed`
equals the number of operations that began executing and finished
(whichever way they settled); a queue-timeout event changes neither
`totalProcessed` nor `totalWaitTime` (timed-out requests are never counted
and never contribute wait time); and `getStats` reports
`averageWaitTime = round(totalWaitTime / totalProcessed)` (computed here
as exact natural rounding) when `totalProcessed > 0` and `0` otherwise,
alongside the live counters. -/
theorem C10_stats_consistency (c t : Nat) (evs : List QEvent) (id : String) :
    (qRun c t evs).totalProcessed = (qRun c t evs).finished ∧
    (qStep (qRun c t evs) (QEvent.fireTimeout id)).totalProcessed =
      (qRun c t evs).totalProcessed ∧
    (qStep (qRun c t evs) (QEvent.fireTimeout id)).totalWaitTime =
      (qRun c t evs).totalWaitTime ∧
    (getStats (qRun c t evs)).averageWaitTime =
      (if 0 < (qRun c t evs).totalProcessed
       then (((2 * (qRun c t evs).totalWaitTime + (qRun c t evs).totalProcessed) /
              (2 * (qRun c t evs).totalProcessed) : ℕ) : ℤ)
       else 0) ∧
    (getStats (qRun c t evs)).totalProcessed = (qRun c t evs).totalProcessed ∧
    (getStats (qRun c t evs)).queuedRequests = (qRun c t evs).queue.length ∧
    (getStats (qRun c t evs)).activeRequests = (qRun c t evs).activeRequests := by
  refine ⟨(qRun_accounting c t evs).2.2, ?_, ?_, ?_, rfl, rfl, rfl⟩
  · cases hr : removeFirstById id (qRun c t evs).queue <;> simp [qStep, hr]
  · cases hr : removeFirstById id (qRun c t evs).queue <;> simp [qStep, hr]
  · unfold getStats
    by_cases hp : 0 < (qRun c t evs).totalProcessed
    · simp only [if_pos hp]
      exact mathRound_nat_div _ _ hp
    · simp [if_neg hp]

theorem removeFirstById_mem (r : String) (l : List QueuedEntry) :
    (∃ l', removeFirstById r l = some l') ↔ r ∈ l.map (·.id) := by
  induction l with
  | nil => simp [removeFirstById]
  | cons q rest ih =>
      by_cases hq : q.id = r
      · simp [removeFirstById, hq]
      · simp only [removeFirstById, if_neg hq, List.map_cons, List.mem_cons]
        constructor
        · rintro ⟨l', hl'⟩
          rcases Option.map_eq_some'.mp hl' with ⟨l'', h1, _⟩
          exact Or.inr (ih.mp ⟨l'', h1⟩)
        · rintro (h | h)
          · exact absurd h.symm hq
          · obtain ⟨l'', hl''⟩ := ih.mpr h
            exact ⟨q :: l'', by rw [hl'']; rfl⟩

theorem removeFirstById_not_mem (r : String) (l l' : List QueuedEntry)
    (hcount : (l.map (·.id)).count r ≤ 1)
    (h : removeFirstById r l = some l') : r ∉ l'.map (·.id) := by
  induction l generalizing l' with
  | nil => simp [removeFirstById] at h
  | cons q rest ih =>
      by_cases hq : q.id = r
      · rw [removeFirstById, if_pos hq] at h
        cases h
        intro hmem
        have hpos : 0 < (rest.map (·.id)).count r :=
          List.count_pos_iff_mem.mpr hmem
        simp only [List.map_cons, List.count_cons, hq] at hcount
        simp at hcount
        omega
      · rw [removeFirstById, if_neg hq] at h
        rcases Option.map_eq_some'.mp h with ⟨l'', h1, rfl⟩
        simp only [List.map_cons, List.mem_cons]
        rintro (h | h)
        · exact hq h.symm
        · refine ih l'' ?_ h1 h
          simp only [List.map_cons, List.count_cons] at hcount
          omega

theorem removeFirstById_subset (r : String) (l l' : List QueuedEntry)
    (h : removeFirstById r l = some l') (x : String)
    (hx : x ∈ l'.map (·.id)) : x ∈ l.map (·.id) := by
  induction l generalizing l' with
  | nil => simp [removeFirstById] at h
  | cons q rest ih =>
      by_cases hq : q.id = r
      · rw [removeFirstById, if_pos hq] at h
        cases h
        exact List.mem_cons_of_mem _ hx
      · rw [removeFirstById, if_neg hq] at h
        rcases Option.map_eq_some'.mp h with ⟨l'', h1, rfl⟩
        rcases List.mem_map.mp hx with ⟨a, ha, rfl⟩
        rcases List.mem_cons.mp ha with h2 | h2
        · subst h2
          exact List.mem_map.mpr ⟨a, List.mem_cons_self _ _, rfl⟩
        · rw [List.map_cons]
          exact List.mem_cons_of_mem _
            (ih l'' h1 (List.mem_map.mpr ⟨a, h2, rfl⟩))

theorem processQueueGo_started_mem (now : Nat) (l : List QueuedEntry)
    (s : QState) (x : String) (h : x ∈ (processQueueGo now l s).started) :
    x ∈ s.started ∨ x ∈ l.map (·.id) := by
  induction l generalizing s with
  | nil =>
      left
      simpa [processQueueGo] using h
  | cons e rest ih =>
      by_cases hlt : s.activeRequests < s.maxConcurrent
      · rw [processQueueGo, if_pos hlt] at h
        rcases ih (admitOne s e now) h with h2 | h2
        · have h3 : x ∈ s.started ++ [e.id] := h2
          rcases List.mem_append.mp h3 with h4 | h4
          · exact Or.inl h4
          · rw [List.mem_singleton] at h4
            refine Or.inr ?_
            rw [List.map_cons, h4]
            exact List.mem_cons_self _ _
        · refine Or.inr ?_
          rw [List.map_cons]
          exact List.mem_cons_of_mem _ h2
      · rw [processQueueGo, if_neg hlt] at h
        exact Or.inl h

theorem processQueueGo_queue_mem (now : Nat) (l : List QueuedEntry)
    (s : QState) (x : String)
    (h : x ∈ (processQueueGo now l s).queue.map (·.id)) :
    x ∈ l.map (·.id) := by
  induction l generalizing s with
  | nil => simp [processQueueGo] at h
  | cons e rest ih =>
      by_cases hlt : s.activeRequests < s.maxConcurrent
      · rw [processQueueGo, if_pos hlt] at h
        exact List.mem_cons_of_mem _ (ih (admitOne s e now) h)
      · rw [processQueueGo, if_neg hlt] at h
        simpa using h

theorem qStep_started_mem (s : QState) (e : QEvent) (x : String)
    (h : x ∈ (qStep s e).started) :
    x ∈ s.started ∨ x ∈ s.queue.map (·.id) ∨ ∃ now, e = QEvent.arrive x now := by
  cases e with
  | arrive id now =>
      by_cases hlt : s.activeRequests < s.maxConcurrent
      · rw [qStep, if_pos hlt] at h
        rcases List.mem_append.mp h with h2 | h2
        · exact Or.inl h2
        · simp only [List.mem_singleton] at h2
          exact Or.inr (Or.inr ⟨now, by rw [h2]⟩)
      · rw [qStep, if_neg hlt] at h
        exact Or.inl h
  | complete id ok now =>
      by_cases hmem : id ∈ s.running
      · rw [qStep, if_pos hmem] at h
        rcases processQueueGo_started_mem now _ _ x h with h2 | h2
        · exact Or.inl h2
        · exact Or.inr (Or.inl h2)
      · rw [qStep, if_neg hmem] at h
        exact Or.inl h
  | fireTimeout id =>
      cases hr : removeFirstById id s.queue with
      | some q' =>
          rw [qStep] at h
          simp only [hr] at h
          exact Or.inl h
      | none =>
          rw [qStep] at h
          simp only [hr] at h
          exact Or.inl h
  | setMax m now =>
      rw [qStep] at h
      rcases processQueueGo_started_mem now _ _ x h with h2 | h2
      · exact Or.inl h2
      · exact Or.inr (Or.inl h2)

theorem qStep_queue_mem (s : QState) (e : QEvent) (x : String)
    (h : x ∈ (qStep s e).queue.map (·.id)) :
    x ∈ s.queue.map (·.id) ∨ ∃ now, e = QEvent.arrive x now := by
  cases e with
  | arrive id now =>
      by_cases hlt : s.activeRequests < s.maxConcurrent
      · rw [qStep, if_pos hlt] at h
        exact Or.inl h
      · rw [qStep, if_neg hlt] at h
        rcases List.mem_map.mp h with ⟨a, ha, rfl⟩
        rcases List.mem_append.mp ha with h2 | h2
        · exact Or.inl (List.mem_map.mpr ⟨a, h2, rfl⟩)
        · rw [List.mem_singleton] at h2
          subst h2
          exact Or.inr ⟨now, rfl⟩
  | complete id ok now =>
      by_cases hmem : id ∈ s.running
      · rw [qStep, if_pos hmem] at h
        exact Or.inl (processQueueGo_queue_mem now _ _ x h)
      · rw [qStep, if_neg hmem] at h
        exact Or.inl h
  | fireTimeout id =>
      cases hr : removeFirstById id s.queue with
      | some q' =>
          rw [qStep] at h
          simp only [hr] at h
          exact Or.inl (removeFirstById_subset id _ q' hr x h)
      | none =>
          rw [qStep] at h
          simp only [hr] at h
          exact Or.inl h
  | setMax m now =>
      rw [qStep] at h
      exact Or.inl (processQueueGo_queue_mem now _ _ x h)

theorem not_started_stable (l : List QEvent) (s : QState) (x : String)
    (hs : x ∉ s.started) (hq : x ∉ s.queue.map (·.id))
    (hfut : ∀ now, QEvent.arrive x now ∉ l) :
    x ∉ (l.foldl qStep s).started ∧ x ∉ (l.foldl qStep s).queue.map (·.id) := by
  induction l generalizing s with
  | nil => exact ⟨hs, hq⟩
  | cons e rest ih =>
      rw [List.foldl_cons]
      refine ih (qStep s e) ?_ ?_ ?_
      · intro hmem
        rcases qStep_started_mem s e x hmem with h | h | ⟨now, rfl⟩
        · exact hs h
        · exact hq h
        · exact hfut now (List.mem_cons_self _ _)
      · intro hmem
        rcases qStep_queue_mem s e x hmem with h | ⟨now, rfl⟩
        · exact hq h
        · exact hfut now (List.mem_cons_self _ _)
      · intro now hmem
        exact hfut now (List.mem_cons_of_mem e hmem)

theorem qStep_rejected_mono (s : QState) (e : QEvent) (p : String × String)
    (h : p ∈ s.rejectedQueue) : p ∈ (qStep s e).rejectedQueue := by
  cases e with
  | arrive id now =>
      by_cases hlt : s.activeRequests < s.maxConcurrent
      · rw [qStep, if_pos hlt]; exact h
      · rw [qStep, if_neg hlt]; exact h
  | complete id ok now =>
      by_cases hmem : id ∈ s.running
      · rw [qStep, if_pos hmem]
        rw [processQueue, (processQueueGo_fields now _ _).2.2.2.2.1]
        exact h
      · rw [qStep, if_neg hmem]; exact h
  | fireTimeout id =>
      cases hr : removeFirstById id s.queue with
      | some q' =>
          rw [qStep]
          simp only [hr]
          exact List.mem_append_left _ h
      | none =>
          rw [qStep]
          simp only [hr]
          exact h
  | setMax m now =>
      rw [qStep, processQueue, (processQueueGo_fields now _ _).2.2.2.2.1]
      exact h

theorem rejected_stable_foldl (l : List QEvent) (s : QState)
    (p : String × String) (h : p ∈ s.rejectedQueue) :
    p ∈ (l.foldl qStep s).rejectedQueue := by
  induction l generalizing s with
  | nil => exact h
  | cons e rest ih =>
      rw [List.foldl_cons]
      exact ih (qStep s e) (qStep_rejected_mono s e p h)

theorem qStep_queueTimeout (s : QState) (e : QEvent) :
    (qStep s e).queueTimeout = s.queueTimeout := by
  cases e with
  | arrive id now =>
      by_cases hlt : s.activeRequests < s.maxConcurrent
      · rw [qStep, if_pos hlt]
      · rw [qStep, if_neg hlt]
  | complete id ok now =>
      by_cases hmem : id ∈ s.running
      · rw [qStep, if_pos hmem, processQueue,
          (processQueueGo_fields now _ _).2.2.2.1]
      · rw [qStep, if_neg hmem]
  | fireTimeout id =>
      cases hr : removeFirstById id s.queue with
      | some q' => rw [qStep]; simp only [hr]
      | none => rw [qStep]; simp only [hr]
  | setMax m now =>
      rw [qStep, processQueue, (processQueueGo_fields now _ _).2.2.2.1]

theorem qRun_queueTimeout (c t : Nat) (evs : List QEvent) :
    (qRun c t evs).queueTimeout = t := by
  unfold qRun
  induction evs using List.reverseRecOn with
  | nil => rfl
  | append_singleton l e ih =>
      rw [List.foldl_append, List.foldl_cons, List.foldl_nil,
        qStep_queueTimeout, ih]

/-- C3: a request enqueued while the gate is saturated that is still in
the wait queue when its queue-timeout timer fires is removed from the
queue, its promise is rejected with the queue-timeout error
`Request timeout: queued for <queueTimeout>ms`, and its operation is never
invoked — neither by the timeout transition nor by any later events (that
do not resubmit the same id). -/
theorem C3_queue_timeout (c t : Nat) (evs evs2 : List QEvent) (r : String)
    (hq : r ∈ (qRun c t evs).queue.map (·.id))
    (hcount : ((qRun c t evs).queue.map (·.id)).count r ≤ 1)
    (hns : r ∉ (qRun c t evs).started)
    (hfut : ∀ now, QEvent.arrive r now ∉ evs2) :
    r ∉ (qStep (qRun c t evs) (QEvent.fireTimeout r)).queue.map (·.id) ∧
    (r, queueTimeoutMsg t) ∈
      (qStep (qRun c t evs) (QEvent.fireTimeout r)).rejectedQueue ∧
    r ∉ (evs2.foldl qStep (qStep (qRun c t evs)
          (QEvent.fireTimeout r))).started ∧
    (r, queueTimeoutMsg t) ∈ (evs2.foldl qStep (qStep (qRun c t evs)
          (QEvent.fireTimeout r))).rejectedQueue := by
  obtain ⟨q', hr⟩ := (removeFirstById_mem r _).mpr hq
  have hto : (qRun c t evs).queueTimeout = t := qRun_queueTimeout c t evs
  have h1 : r ∉ (qStep (qRun c t evs) (QEvent.fireTimeout r)).queue.map (·.id) := by
    rw [qStep]
    simp only [hr]
    exact removeFirstById_not_mem r _ q' hcount hr
  have h2 : (r, queueTimeoutMsg t) ∈
      (qStep (qRun c t evs) (QEvent.fireTimeout r)).rejectedQueue := by
    rw [qStep]
    simp only [hr, hto]
    exact List.mem_append_right _ (by simp)
  have hsts : r ∉ (qStep (qRun c t evs) (QEvent.fireTimeout r)).started := by
    rw [qStep]
    simp only [hr]
    exact hns
  exact ⟨h1, h2, (not_started_stable evs2 _ r hsts h1 hfut).1,
    rejected_stable_foldl evs2 _ _ h2⟩

/-- Witness for C3: with `maxConcurrent = 1`, request B is enqueued behind
running request A and times out; A later completes. -/
theorem C3_queue_timeout_witness :
    "B" ∉ (qStep (qRun 1 30000 [QEvent.arrive "A" 0, QEvent.arrive "B" 0])
        (QEvent.fireTimeout "B")).queue.map (·.id) ∧
    ("B", queueTimeoutMsg 30000) ∈
      (qStep (qRun 1 30000 [QEvent.arrive "A" 0, QEvent.arrive "B" 0])
        (QEvent.fireTimeout "B")).rejectedQueue ∧
    "B" ∉ ([QEvent.complete "A" true 5].foldl qStep
        (qStep (qRun 1 30000 [QEvent.arrive "A" 0, QEvent.arrive "B" 0])
          (QEvent.fireTimeout "B"))).started ∧
    ("B", queueTimeoutMsg 30000) ∈
      ([QEvent.complete "A" true 5].foldl qStep
        (qStep (qRun 1 30000 [QEvent.arrive "A" 0, QEvent.arrive "B" 0])
          (QEvent.fireTimeout "B"))).rejectedQueue :=
  C3_queue_timeout 1 30000 [QEvent.arrive "A" 0, QEvent.arrive "B" 0]
    [QEvent.complete "A" true 5] "B" (by decide) (by decide) (by decide)
    (by intro now hmem; simp at hmem)

/-- Terminal events of one `executeGeminiCLIInternal` run: the events
whose handlers call `resolve`. -/
def isTerminalExec : ExecEvent → Bool
  | .timerFire _ => true
  | .close _ _ => true
  | .spawnError _ _ => true
  | _ => false

theorem resolveOnce_isSome (s : ExecState) (r : CLIExecutionResult) :
    (resolveOnce s r).settled.isSome = true := by
  cases h : s.settled <;> simp [resolveOnce, h]

/-- C8 (counterexample): the claim that the promise returned by `execute`
never rejects is false: with `maxConcurrent = 1`, a second submission is
enqueued and, when its queue-timeout timer fires, its promise is rejected
with an `Error` (recorded in `rejectedQueue`) instead of resolving with a
classified `ExecutionResult`. -/
theorem C8_counterexample :
    (qRun 1 30000 [QEvent.arrive "A" 0, QEvent.arrive "B" 0,
        QEvent.fireTimeout "B"]).rejectedQueue =
      [("B", queueTimeoutMsg 30000)] ∧
    (qRun 1 30000 [QEvent.arrive "A" 0, QEvent.arrive "B" 0,
        QEvent.fireTimeout "B"]).rejectedQueue ≠ [] := by
  constructor <;> decide

/-- C8 (amended): for every submission whose operation actually runs, the
engine resolves with a classified `ExecutionResult` and never rejects —
the internal executor settles its promise on every terminal event
(execution timeout, close with any exit code covering empty output and
non-zero exit, and spawn failure) and only ever via `resolve`; but a
request that times out in the wait queue has its promise rejected with a
queue-timeout `Error`. -/
theorem C8_amended_always_resolves
    (evs : List ExecEvent) (e : ExecEvent) (hterm : isTerminalExec e = true)
    (s : QState) (id : String) (hid : id ∈ s.queue.map (·.id)) :
    (execRun (evs ++ [e])).settled.isSome = true ∧
    (qStep s (QEvent.fireTimeout id)).rejectedQueue =
      s.rejectedQueue ++ [(id, queueTimeoutMsg s.queueTimeout)] := by
  constructor
  · have hinv := execInv_run evs
    rw [execRun, List.foldl_append, List.foldl_cons, List.foldl_nil]
    rw [show List.foldl execStep execInit evs = execRun evs from rfl]
    cases e with
    | stdoutData c => simp [isTerminalExec] at hterm
    | stderrData c => simp [isTerminalExec] at hterm
    | timerFire t =>
        by_cases ht : (execRun evs).timerActive
        · rw [execStep, if_pos ht]
          exact resolveOnce_isSome _ _
        · rw [execStep, if_neg ht]
          exact hinv.1 (by simpa using ht)
    | close code t =>
        by_cases hc : (execRun evs).closed
        · rw [execStep, if_pos hc]
          exact (hinv.2.1 hc).1
        · rw [execStep, if_neg hc]
          exact resolveOnce_isSome _ _
    | spawnError m t =>
        rw [execStep]
        exact resolveOnce_isSome _ _
  · obtain ⟨q', hr⟩ := (removeFirstById_mem id _).mpr hid
    rw [qStep]
    simp only [hr]

/-- Witness for C8 (amended): an empty-output close event, and a queue
with one waiting entry whose timer fires. -/
theorem C8_amended_always_resolves_witness :
    (execRun ([] ++ [ExecEvent.close (some 0) 7])).settled.isSome = true ∧
    (qStep (qRun 1 30000 [QEvent.arrive "A" 0, QEvent.arrive "B" 0])
        (QEvent.fireTimeout "B")).rejectedQueue =
      (qRun 1 30000 [QEvent.arrive "A" 0,
        QEvent.arrive "B" 0]).rejectedQueue ++
        [("B", queueTimeoutMsg (qRun 1 30000 [QEvent.arrive "A" 0,
          QEvent.arrive "B" 0]).queueTimeout)] :=
  C8_amended_always_resolves [] (ExecEvent.close (some 0) 7) (by decide)
    (qRun 1 30000 [QEvent.arrive "A" 0, QEvent.arrive "B" 0]) "B" (by decide)

/-- Substring test on character lists (JavaScript
`String.prototype.includes`). -/
def hasSubstring (pat : List Char) : List Char → Bool
  | [] => pat.isEmpty
  | c :: rest => pat.isPrefixOf (c :: rest) || hasSubstring pat rest

/-- Modelled from the spec: the Conflict Resolver's transient-conflict
detection (spec §4.5 and §9); the detecting code itself is not under
`src/` — only the configuration (`CLI_MAX_RETRIES`) and the operational
docs reference it. Per the docs, the signature is the Docker exit code 125
combined with the container-name-collision text in stderr. -/
def isTransientConflict (r : CLIExecutionResult) : Bool :=
  r.exitCode == 125 &&
    hasSubstring "already in use".toList (r.stderr.getD "").toList

/-- Modelled from the spec: the Conflict Resolver retry loop of §4.5
(`ATTEMPT(n)`): run the executor; on success stop; on a transient conflict
stop reporting failure when `n ≥ maxRetries` and otherwise retry with
`ATTEMPT(n+1)`; any other failure is terminal. `exec n` is the result of
attempt number `n` (0-based); the returned number is the total number of
attempts performed. -/
def runAttempts (exec : Nat → CLIExecutionResult) (maxRetries : Nat)
    (n : Nat) : CLIExecutionResult × Nat :=
  let r := exec n
  if r.success then (r, n + 1)
  else if isTransientConflict r then
    if h : maxRetries ≤ n then (r, n + 1)
    else runAttempts exec maxRetries (n + 1)
  else (r, n + 1)
termination_by maxRetries + 1 - n
decreasing_by omega

/-- Modelled from the spec: one invocation of the retrying executor,
starting at attempt 0. -/
def executeWithRetries (exec : Nat → CLIExecutionResult)
    (maxRetries : Nat) : CLIExecutionResult × Nat :=
  runAttempts exec maxRetries 0

theorem runAttempts_le (exec : Nat → CLIExecutionResult) (m : Nat) :
    ∀ k n, m + 1 - n ≤ k → n ≤ m → (runAttempts exec m n).2 ≤ m + 1 := by
  intro k
  induction k with
  | zero => intro n hk hn; omega
  | succ k ih =>
      intro n hk hn
      rw [runAttempts]
      by_cases hs : (exec n).success
      · simp [hs]
        omega
      · by_cases htc : isTransientConflict (exec n)
        · by_cases hle : m ≤ n
          · simp [hs, htc, hle]
            omega
          · simp [hs, htc, hle]
            exact ih (n + 1) (by omega) (by omega)
        · simp [hs, htc]
          omega

/-- C4: with a mock executor that always returns the transient-conflict
signature, an invocation with `maxRetries = 3` performs exactly 4 total
attempts (1 initial + 3 retries) before reporting failure; and in general
any invocation performs at most `maxRetries + 1` attempts. -/
theorem C4_retry_bound (exec : Nat → CLIExecutionResult)
    (hmock : ∀ n, (exec n).success = false ∧
      isTransientConflict (exec n) = true)
    (exec2 : Nat → CLIExecutionResult) (m : Nat) :
    (executeWithRetries exec 3).2 = 4 ∧
    (executeWithRetries exec 3).1.success = false ∧
    (executeWithRetries exec2 m).2 ≤ m + 1 := by
  refine ⟨?_, ?_, runAttempts_le exec2 m (m + 1) 0 (by omega) (by omega)⟩
  all_goals
    rw [executeWithRetries, runAttempts, runAttempts, runAttempts, runAttempts]
    simp [(hmock 0).1, (hmock 0).2, (hmock 1).1, (hmock 1).2,
      (hmock 2).1, (hmock 2).2, (hmock 3).1, (hmock 3).2]

/-- A mock executor result carrying the transient-conflict signature
(Docker exit code 125 plus the container-name-collision stderr text). -/
def mockConflictResult : CLIExecutionResult :=
  { success := false
    error := some "CLI exited with code 125"
    exitCode := 125
    stderr := some ("docker: Error response from daemon: Conflict. " ++
      "The container name /sandbox is already in use by container abc.")
    executionTime := 100 }

theorem mockConflictResult_transient :
    mockConflictResult.success = false ∧
    isTransientConflict mockConflictResult = true := by
  constructor <;> decide

/-- Witness for C4: the constant transient-conflict mock executor. -/
theorem C4_retry_bound_witness :
    (executeWithRetries (fun _ => mockConflictResult) 3).2 = 4 ∧
    (executeWithRetries (fun _ => mockConflictResult) 3).1.success = false ∧
    (executeWithRetries (fun _ => mockConflictResult) 5).2 ≤ 5 + 1 :=
  C4_retry_bound (fun _ => mockConflictResult)
    (fun _ => mockConflictResult_transient) (fun _ => mockConflictResult) 5

/-- An id is still waiting when it has neither been admitted from the
queue nor removed by a queue timeout. -/
def waitingIn (adm timedOut : List String) (i : String) : Bool :=
  decide (i ∉ adm ∧ i ∉ timedOut)

/-- FIFO invariant of the wait queue, stated for a pending entry list `l`
(during the `processQueue` loop, `l` is the part of the queue not yet
examined): the enqueue and admission ghost orders are duplicate-free and
drawn from the submitted ids, the pending ids are exactly the enqueued ids
that are still waiting, in enqueue order, and admission respects enqueue
order among entries that did not time out. -/
def fifoInvAux (l : List QueuedEntry) (s : QState) : Prop :=
  s.enqOrder.Nodup ∧
  s.admitOrder.Nodup ∧
  (∀ x ∈ s.enqOrder, x ∈ s.arrived) ∧
  (∀ x ∈ s.admitOrder, x ∈ s.arrived) ∧
  (∀ x ∈ s.timedOutIds, x ∈ s.arrived) ∧
  l.map (·.id) = s.enqOrder.filter (waitingIn s.admitOrder s.timedOutIds) ∧
  (∀ a b : String, ([a, b]).Sublist s.enqOrder → a ∉ s.timedOutIds →
      b ∈ s.admitOrder → ([a, b]).Sublist s.admitOrder)

/-- The FIFO invariant of a quiescent state (pending list = the queue). -/
def fifoInv (s : QState) : Prop := fifoInvAux s.queue s

theorem removeFirstById_map_filter (r : String) (l l' : List QueuedEntry)
    (hnd : (l.map (·.id)).Nodup) (h : removeFirstById r l = some l') :
    l'.map (·.id) = (l.map (·.id)).filter (fun x => decide (¬ x = r)) := by
  induction l generalizing l' with
  | nil => simp [removeFirstById] at h
  | cons q rest ih =>
      rw [List.map_cons] at hnd
      by_cases hq : q.id = r
      · rw [removeFirstById, if_pos hq] at h
        cases h
        rw [List.map_cons, List.filter_cons_of_neg (by simp [hq])]
        refine (List.filter_eq_self.mpr ?_).symm
        intro x hx
        have hqx : q.id ∉ rest.map (·.id) := (List.nodup_cons.mp hnd).1
        simp only [decide_eq_true_eq]
        intro hxr
        exact hqx (by rw [hq, ← hxr]; exact hx)
      · rw [removeFirstById, if_neg hq] at h
        rcases Option.map_eq_some'.mp h with ⟨l'', h1, rfl⟩
        rw [List.map_cons, List.map_cons,
          List.filter_cons_of_pos (by simp [hq])]
        exact congrArg (q.id :: ·) (ih l'' (List.nodup_cons.mp hnd).2 h1)

theorem fifoInvAux_admitHead (s : QState) (e : QueuedEntry)
    (rest : List QueuedEntry) (now : Nat) (h : fifoInvAux (e :: rest) s) :
    fifoInvAux rest (admitOne s e now) := by
  obtain ⟨hne, hna, hsube, hsuba, hsubt, hfil, hfifo⟩ := h
  have hfil' : s.enqOrder.filter (waitingIn s.admitOrder s.timedOutIds) =
      e.id :: rest.map (·.id) := by rw [← hfil]; rfl
  have hmemfil : e.id ∈
      s.enqOrder.filter (waitingIn s.admitOrder s.timedOutIds) := by
    rw [hfil']
    exact List.mem_cons_self _ _
  have henq : e.id ∈ s.enqOrder := (List.mem_filter.mp hmemfil).1
  have hwait := (List.mem_filter.mp hmemfil).2
  rw [waitingIn, decide_eq_true_eq] at hwait
  obtain ⟨hnotadm, hnottO⟩ := hwait
  have hnodupfil : (e.id :: rest.map (·.id)).Nodup := by
    rw [← hfil']
    exact hne.filter _
  have hnotrest : e.id ∉ rest.map (·.id) := (List.nodup_cons.mp hnodupfil).1
  refine ⟨hne, ?_, hsube, ?_, hsubt, ?_, ?_⟩
  · simp [admitOne, List.nodup_append, hna, hnotadm]
  · intro x hx
    have hx' : x ∈ s.admitOrder ++ [e.id] := hx
    rcases List.mem_append.mp hx' with h2 | h2
    · exact hsuba x h2
    · rw [List.mem_singleton] at h2
      rw [h2]
      exact hsube _ henq
  · show rest.map (·.id) =
      s.enqOrder.filter (waitingIn (s.admitOrder ++ [e.id]) s.timedOutIds)
    have hpt : ∀ x ∈ s.enqOrder,
        waitingIn (s.admitOrder ++ [e.id]) s.timedOutIds x =
          ((fun y => decide (¬ y = e.id)) x &&
            waitingIn s.admitOrder s.timedOutIds x) := by
      intro x _
      by_cases h1 : x = e.id <;> by_cases h2 : x ∈ s.admitOrder <;>
        by_cases h3 : x ∈ s.timedOutIds <;>
        simp [waitingIn, h1, h2, h3]
    rw [List.filter_congr hpt, ← List.filter_filter, hfil',
      List.filter_cons_of_neg (by simp)]
    refine (List.filter_eq_self.mpr ?_).symm
    intro x hx
    simp only [decide_eq_true_eq]
    intro hxe
    exact hnotrest (hxe ▸ hx)
  · intro a b hab hat hb
    have hab' : ([a, b]).Sublist s.enqOrder := hab
    have hat' : a ∉ s.timedOutIds := hat
    have hb' : b ∈ s.admitOrder ++ [e.id] := hb
    show ([a, b]).Sublist (s.admitOrder ++ [e.id])
    rcases List.mem_append.mp hb' with hb2 | hb2
    · exact (hfifo a b hab' hat' hb2).trans (List.sublist_append_left _ _)
    · rw [List.mem_singleton] at hb2
      subst hb2
      have hamem : a ∈ s.admitOrder := by
        by_contra hna2
        have hwa : waitingIn s.admitOrder s.timedOutIds a = true := by
          rw [waitingIn, decide_eq_true_eq]
          exact ⟨hna2, hat'⟩
        have hwb : waitingIn s.admitOrder s.timedOutIds e.id = true := by
          rw [waitingIn, decide_eq_true_eq]
          exact ⟨hnotadm, hnottO⟩
        have hsubfil := hab'.filter (waitingIn s.admitOrder s.timedOutIds)
        rw [hfil'] at hsubfil
        have hkeep : ([a, e.id]).filter (waitingIn s.admitOrder s.timedOutIds)
            = [a, e.id] := by
          rw [List.filter_cons_of_pos hwa, List.filter_cons_of_pos hwb]
          rfl
        rw [hkeep] at hsubfil
        by_cases hae : a = e.id
        · rw [hae] at hab'
          have hnd2 : ([e.id, e.id]).Nodup := hne.sublist hab'
          simp at hnd2
        · cases hsubfil with
          | cons x h' => exact hnotrest (List.Sublist.subset h' (by simp))
          | cons₂ x h' => exact hae rfl
      have ha1 : ([a]).Sublist s.admitOrder := List.singleton_sublist.mpr hamem
      exact List.Sublist.append ha1 (List.Sublist.refl [e.id])

theorem processQueueGo_fifo (now : Nat) (l : List QueuedEntry) (s : QState)
    (h : fifoInvAux l s) : fifoInv (processQueueGo now l s) := by
  induction l generalizing s with
  | nil => exact h
  | cons e rest ih =>
      by_cases hlt : s.activeRequests < s.maxConcurrent
      · rw [processQueueGo, if_pos hlt]
        exact ih _ (fifoInvAux_admitHead s e rest now h)
      · rw [processQueueGo, if_neg hlt]
        exact h

theorem qStep_fifo (s : QState) (e : QEvent) (h : fifoInv s)
    (hfresh : ∀ id now, e = QEvent.arrive id now → id ∉ s.arrived) :
    fifoInv (qStep s e) := by
  obtain ⟨hne, hna, hsube, hsuba, hsubt, hfil, hfifo⟩ := h
  cases e with
  | arrive id now =>
      have hid : id ∉ s.arrived := hfresh id now rfl
      have hidenq : id ∉ s.enqOrder := fun hmem => hid (hsube _ hmem)
      have hidadm : id ∉ s.admitOrder := fun hmem => hid (hsuba _ hmem)
      have hidtO : id ∉ s.timedOutIds := fun hmem => hid (hsubt _ hmem)
      by_cases hlt : s.activeRequests < s.maxConcurrent
      · rw [qStep, if_pos hlt]
        refine ⟨hne, hna, ?_, ?_, ?_, hfil, hfifo⟩
        · intro x hx
          exact List.mem_append_left _ (hsube x hx)
        · intro x hx
          exact List.mem_append_left _ (hsuba x hx)
        · intro x hx
          exact List.mem_append_left _ (hsubt x hx)
      · rw [qStep, if_neg hlt]
        have hw : waitingIn s.admitOrder s.timedOutIds id = true := by
          rw [waitingIn, decide_eq_true_eq]
          exact ⟨hidadm, hidtO⟩
        refine ⟨?_, hna, ?_, ?_, ?_, ?_, ?_⟩
        · show (s.enqOrder ++ [id]).Nodup
          simp [List.nodup_append, hne, hidenq]
        · intro x hx
          have hx' : x ∈ s.enqOrder ++ [id] := hx
          rcases List.mem_append.mp hx' with h2 | h2
          · exact List.mem_append_left _ (hsube x h2)
          · rw [List.mem_singleton] at h2
            rw [h2]
            exact List.mem_append_right _ (by simp)
        · intro x hx
          exact List.mem_append_left _ (hsuba x hx)
        · intro x hx
          exact List.mem_append_left _ (hsubt x hx)
        · show (s.queue ++ [QueuedEntry.mk id now]).map (·.id) =
            (s.enqOrder ++ [id]).filter (waitingIn s.admitOrder s.timedOutIds)
          rw [List.map_append, List.filter_append, hfil,
            List.filter_cons_of_pos hw]
          rfl
        · intro a b hab hat hb
          have hab' : ([a, b]).Sublist (s.enqOrder ++ [id]) := hab
          have hat' : a ∉ s.timedOutIds := hat
          have hb' : b ∈ s.admitOrder := hb
          show ([a, b]).Sublist s.admitOrder
          rcases List.sublist_append_iff.mp hab' with ⟨l₃, l₄, heq, h₃, h₄⟩
          rcases List.sublist_singleton.mp h₄ with h4 | h4
          · subst h4
            rw [List.append_nil] at heq
            exact hfifo a b (heq ▸ h₃) hat' hb'
          · subst h4
            have hb_id : b = id := by
              cases l₃ with
              | nil => simp at heq
              | cons x xs =>
                  cases xs with
                  | nil =>
                      simp only [List.cons_append, List.nil_append,
                        List.cons.injEq] at heq
                      exact heq.2.1
                  | cons y ys => simp at heq
            rw [hb_id] at hb'
            exact absurd (hsuba _ hb') hid
  | complete id ok now =>
      by_cases hmem : id ∈ s.running
      · rw [qStep, if_pos hmem]
        exact processQueueGo_fifo now _ _
          ⟨hne, hna, hsube, hsuba, hsubt, hfil, hfifo⟩
      · rw [qStep, if_neg hmem]
        exact ⟨hne, hna, hsube, hsuba, hsubt, hfil, hfifo⟩
  | fireTimeout id =>
      cases hr : removeFirstById id s.queue with
      | none =>
          rw [qStep]
          simp only [hr]
          exact ⟨hne, hna, hsube, hsuba, hsubt, hfil, hfifo⟩
      | some q' =>
          rw [qStep]
          simp only [hr]
          have hidq : id ∈ s.queue.map (·.id) :=
            Iff.mp (removeFirstById_mem id s.queue) (Exists.intro q' hr)
          have hid_filmem : id ∈
              s.enqOrder.filter (waitingIn s.admitOrder s.timedOutIds) :=
            hfil ▸ hidq
          have hid_enq : id ∈ s.enqOrder := (List.mem_filter.mp hid_filmem).1
          have hqnodup : (s.queue.map (·.id)).Nodup := by
            rw [hfil]
            exact hne.filter _
          refine ⟨hne, hna, hsube, hsuba, ?_, ?_, ?_⟩
          · intro x hx
            have hx' : x ∈ s.timedOutIds ++ [id] := hx
            rcases List.mem_append.mp hx' with h2 | h2
            · exact hsubt x h2
            · rw [List.mem_singleton] at h2
              rw [h2]
              exact hsube _ hid_enq
          · show q'.map (·.id) =
              s.enqOrder.filter (waitingIn s.admitOrder (s.timedOutIds ++ [id]))
            rw [removeFirstById_map_filter id s.queue q' hqnodup hr, hfil,
              List.filter_filter]
            refine List.filter_congr ?_
            intro x _
            by_cases h1 : x = id <;> by_cases h2 : x ∈ s.admitOrder <;>
              by_cases h3 : x ∈ s.timedOutIds <;>
              simp [waitingIn, h1, h2, h3, List.mem_append]
          · intro a b hab hat hb
            have hat2 : a ∉ s.timedOutIds ++ [id] := hat
            have hat' : a ∉ s.timedOutIds :=
              fun hm => hat2 (List.mem_append_left _ hm)
            exact hfifo a b hab hat' hb
  | setMax m now =>
      rw [qStep]
      exact processQueueGo_fifo now _ _
        ⟨hne, hna, hsube, hsuba, hsubt, hfil, hfifo⟩

/-- States of `CLIQueueManager` reachable by event sequences in which each
submitted request id is distinct (each invocation has its own request id). -/
inductive DReach (c t : Nat) : QState → Prop
  | init : DReach c t (qInit c t)
  | step (s : QState) (e : QEvent) : DReach c t s →
      (∀ id now, e = QEvent.arrive id now → id ∉ s.arrived) →
      DReach c t (qStep s e)

theorem DReach_fifoInv (c t : Nat) (s : QState) (h : DReach c t s) :
    fifoInv s := by
  induction h with
  | init =>
      refine ⟨List.nodup_nil, List.nodup_nil, ?_, ?_, ?_, rfl, ?_⟩
      · intro x hx
        exact absurd hx (List.not_mem_nil x)
      · intro x hx
        exact absurd hx (List.not_mem_nil x)
      · intro x hx
        exact absurd hx (List.not_mem_nil x)
      · intro a b _ _ hb
        exact absurd hb (List.not_mem_nil b)
  | step s e _ hfresh ih => exact qStep_fifo s e ih hfresh

/-- C9: admission of queued waiters is first-in-first-out. With distinct
request ids, for any two requests `a`, `b` enqueued while the gate was
saturated with `a` enqueued before `b` (`[a, b]` a sublist of the enqueue
order), if `a` did not time out in the queue and `b` has been admitted,
then `a` was admitted first (`[a, b]` is a sublist of the admission
order). -/
theorem C9_fifo_admission (c t : Nat) (s : QState) (h : DReach c t s)
    (a b : String) (hab : ([a, b]).Sublist s.enqOrder)
    (ha : a ∉ s.timedOutIds) (hb : b ∈ s.admitOrder) :
    ([a, b]).Sublist s.admitOrder :=
  (DReach_fifoInv c t s h).2.2.2.2.2.2 a b hab ha hb

/-- Witness for C9: with `maxConcurrent = 1`, X runs, B then C are
enqueued; completions start B first, then C. -/
theorem C9_fifo_admission_witness :
    (["B", "C"]).Sublist (qRun 1 30000 [QEvent.arrive "X" 0,
      QEvent.arrive "B" 1, QEvent.arrive "C" 2, QEvent.complete "X" true 3,
      QEvent.complete "B" true 4]).admitOrder :=
  C9_fifo_admission 1 30000 _
    (DReach.step _ (QEvent.complete "B" true 4)
      (DReach.step _ (QEvent.complete "X" true 3)
        (DReach.step _ (QEvent.arrive "C" 2)
          (DReach.step _ (QEvent.arrive "B" 1)
            (DReach.step _ (QEvent.arrive "X" 0) DReach.init
              (fun id now h => by cases h; decide))
            (fun id now h => by cases h; decide))
          (fun id now h => by cases h; decide))
        (fun id now h => nomatch h))
      (fun id now h => nomatch h))
    "B" "C" (by decide) (by decide) (by decide)

end GeminiBridge
